import Mathlib

/-!
Shallow embedding of the all-vs-all sketch similarity join engine of
`src/mash/CommandPairwise.cpp` (RabbitMash).  Hash values are modelled as
naturals, which covers both the 32-bit and the 64-bit widths compared by
`hashLessThan`; cursors into the sorted hash arrays are modelled as the
remaining list suffixes; `double` arithmetic is modelled over `ℝ`.
-/

namespace RabbitMash

/-- A sketched reference sequence: its length and its ascending-sorted hash
list (`Sketch::Reference`, field `hashesSorted`). -/
structure Reference where
  length : ℕ
  hashesSorted : List ℕ
deriving Repr, DecidableEq

instance : Inhabited Reference := ⟨⟨0, []⟩⟩

/-- One accepted pair, `CommandPairwise::PairwiseOutput::PairOutput`:
reference index, shared-hash count (`numer`), comparison denominator,
distance and p-value. -/
structure PairOutput where
  index : ℕ
  numer : ℕ
  denom : ℕ
  distance : ℝ
  pValue : ℝ

/-- The bounded sorted-merge loop of `compareSketches`
(CommandPairwise.cpp:397-416): while `denom < sketchSize` and both lists
still have elements, advance the cursor of the smaller head (both on
equality, also counting a shared hash) and count one comparison per step.
Returns the final `common`, `denom` and the two unconsumed suffixes. -/
def mergeStep (sketchSize : ℕ) (r q : List ℕ) (common denom : ℕ) :
    ℕ × ℕ × List ℕ × List ℕ :=
  if h : denom < sketchSize then
    match r, q with
    | a :: r', b :: q' =>
      if a < b then
        mergeStep sketchSize r' (b :: q') common (denom + 1)
      else if b < a then
        mergeStep sketchSize (a :: r') q' common (denom + 1)
      else
        mergeStep sketchSize r' q' (common + 1) (denom + 1)
    | _, _ => (common, denom, r, q)
  else
    (common, denom, r, q)
termination_by sketchSize - denom
decreasing_by all_goals omega

/-- The counting phase of `compareSketches` (CommandPairwise.cpp:390-436):
run the bounded merge from zero; if it stopped short of `sketchSize`, add
each list's unconsumed length (`denom += size - i` under `i < size`) and
clamp `denom` to `sketchSize`. -/
def compareCounts (sketchSize : ℕ) (r q : List ℕ) : ℕ × ℕ :=
  let res := mergeStep sketchSize r q 0 0
  let common := res.1
  let denom := res.2.1
  let r' := res.2.2.1
  let q' := res.2.2.2
  if denom < sketchSize then
    let d1 := if r' ≠ [] then denom + r'.length else denom
    let d2 := if q' ≠ [] then d1 + q'.length else d1
    (common, if d2 > sketchSize then sketchSize else d2)
  else
    (common, denom)

/-- The distance computation of `compareSketches`
(CommandPairwise.cpp:438-453): `jaccard = common / denom` (over `ℝ`), then
the three-way branch on `common == denom`, `common == 0`, otherwise the
log-formula divided by the k-mer size. -/
noncomputable def distanceOf (common denom kmerSize : ℕ) : ℝ :=
  let jac : ℝ := (common : ℝ) / (denom : ℝ)
  if common = denom then 0
  else if common = 0 then 1
  else -Real.log (2 * jac / (1 + jac)) / (kmerSize : ℝ)

section
open Classical

/-- `compareSketches` (CommandPairwise.cpp:388-467).  The external p-value
routine (`pValue` from CommandDistance, not part of this translation unit)
is passed in as a function `pv` of the same five arguments the call site
supplies: `common`, both sequence lengths, `kmerSpace`, `denom`.  Returns
`none` for "no match" and `some` of the filled output on acceptance; the
`index` field is left at its initial value `0`, the caller sets it. -/
noncomputable def compareSketches (pv : ℕ → ℕ → ℕ → ℝ → ℕ → ℝ)
    (refRef refQry : Reference) (sketchSize kmerSize : ℕ) (kmerSpace : ℝ)
    (maxDistance maxPValue : ℝ) : Option PairOutput :=
  let cd := compareCounts sketchSize refRef.hashesSorted refQry.hashesSorted
  let dist := distanceOf cd.1 cd.2 kmerSize
  if dist > maxDistance ∨ dist = 1 then
    none
  else
    let p := pv cd.1 refRef.length refQry.length kmerSpace cd.2
    if p > maxPValue then none
    else some ⟨0, cd.1, cd.2, dist, p⟩

end

/-! ### Merge-loop lemmas -/

/-- On two identical lists the merge always takes the equal branch:
it consumes `min (sketchSize - denom) l.length` elements from each side
and counts every one of them as shared. -/
theorem mergeStep_self (s : ℕ) (l : List ℕ) (c d : ℕ) :
    mergeStep s l l c d =
      (c + min (s - d) l.length, d + min (s - d) l.length,
       l.drop (min (s - d) l.length), l.drop (min (s - d) l.length)) := by
  induction l generalizing c d with
  | nil =>
    unfold mergeStep
    split <;> simp
  | cons a l ih =>
    unfold mergeStep
    by_cases h : d < s
    · rw [dif_pos h]
      simp only [lt_irrefl, if_false]
      rw [ih]
      have hm : min (s - d) (a :: l).length = min (s - (d + 1)) l.length + 1 := by
        simp only [List.length_cons]
        omega
      rw [hm]
      simp only [List.drop_succ_cons, Prod.mk.injEq, and_true]
      omega
    · rw [dif_neg h]
      have hz : s - d = 0 := by omega
      simp [hz]

/-- Invariants of the merge loop: the final `denom` never exceeds
`sketchSize` (when started below it) and `common` grows no faster than
`denom`. -/
theorem mergeStep_bounds (s : ℕ) (r q : List ℕ) (c d : ℕ) :
    d ≤ s →
      (mergeStep s r q c d).2.1 ≤ s ∧
        (mergeStep s r q c d).1 + d ≤ (mergeStep s r q c d).2.1 + c := by
  induction r, q, c, d using mergeStep.induct s with
  | case1 c d h a r' b q' hab ih =>
    intro hd
    unfold mergeStep
    rw [dif_pos h]
    simp only [hab, if_true]
    obtain ⟨h1, h2⟩ := ih (by omega)
    exact ⟨h1, by omega⟩
  | case2 c d h a r' b q' hab hba ih =>
    intro hd
    unfold mergeStep
    rw [dif_pos h]
    simp only [hab, hba, if_true, if_false]
    obtain ⟨h1, h2⟩ := ih (by omega)
    exact ⟨h1, by omega⟩
  | case3 c d h a r' b q' hab hba ih =>
    intro hd
    unfold mergeStep
    rw [dif_pos h]
    simp only [hab, hba, if_false]
    obtain ⟨h1, h2⟩ := ih (by omega)
    exact ⟨h1, by omega⟩
  | case4 r q c d h h' =>
    intro hd
    cases r with
    | nil =>
      unfold mergeStep
      rw [dif_pos h]
      exact ⟨hd, le_of_eq (Nat.add_comm c d)⟩
    | cons a r' =>
      cases q with
      | nil =>
        unfold mergeStep
        rw [dif_pos h]
        exact ⟨hd, le_of_eq (Nat.add_comm c d)⟩
      | cons b q' => exact (h' a r' b q' rfl rfl).elim
  | case5 r q c d h =>
    intro hd
    unfold mergeStep
    rw [dif_neg h]
    exact ⟨hd, le_of_eq (Nat.add_comm c d)⟩

/-- The merge of two empty hash lists stops immediately with
`common = denom = 0`. -/
theorem mergeStep_nil_nil (s : ℕ) : mergeStep s [] [] 0 0 = (0, 0, [], []) := by
  unfold mergeStep
  split <;> rfl

/-- After the completion-and-clamp phase, `common ≤ denom ≤ sketchSize`. -/
theorem compareCounts_bounds (s : ℕ) (r q : List ℕ) :
    (compareCounts s r q).1 ≤ (compareCounts s r q).2 ∧
      (compareCounts s r q).2 ≤ s := by
  have hb := mergeStep_bounds s r q 0 0 (Nat.zero_le s)
  unfold compareCounts
  rcases hm : mergeStep s r q 0 0 with ⟨c', d', r', q'⟩
  rw [hm] at hb
  simp only [Nat.add_zero] at hb
  dsimp only
  split_ifs <;> omega

/-- Comparing two identical hash lists counts every consumed element as
shared: the result is `common = denom = min sketchSize l.length`. -/
theorem compareCounts_self (s : ℕ) (l : List ℕ) :
    compareCounts s l l = (min s l.length, min s l.length) := by
  unfold compareCounts
  rw [mergeStep_self]
  simp only [Nat.sub_zero, Nat.zero_add]
  by_cases h1 : min s l.length < s
  · have hlen : min s l.length = l.length := by omega
    rw [if_pos h1, hlen]
    simp [List.drop_length]
    omega
  · rw [if_neg h1]

/-! ### Claims about the estimator -/

/-- C2: for every pair of hash lists and every `sketchSize`, the bounded
sorted-merge of `compareSketches` (with virtual union completion and the
final clamp) yields counts with `0 ≤ common ≤ denom ≤ sketchSize`. -/
theorem claim2_counts_bounded (sketchSize : ℕ) (r q : List ℕ) :
    0 ≤ (compareCounts sketchSize r q).1 ∧
      (compareCounts sketchSize r q).1 ≤ (compareCounts sketchSize r q).2 ∧
      (compareCounts sketchSize r q).2 ≤ sketchSize :=
  ⟨Nat.zero_le _, (compareCounts_bounds sketchSize r q).1,
    (compareCounts_bounds sketchSize r q).2⟩

/-- C3: the distance is exactly `0` when `common = denom` (in particular
for identical hash lists, where the merge forces `common = denom`),
exactly `1` when `common = 0` (and the first branch did not fire), and
otherwise `-log (2j/(1+j)) / k` for `j = common/denom`. -/
theorem claim3_distance_cases (c d k s : ℕ) (l : List ℕ) :
    distanceOf c c k = 0 ∧
      (c = 0 → c ≠ d → distanceOf c d k = 1) ∧
      (c ≠ d → c ≠ 0 →
        distanceOf c d k =
          -Real.log (2 * ((c : ℝ) / (d : ℝ)) / (1 + (c : ℝ) / (d : ℝ))) /
            (k : ℝ)) ∧
      ((compareCounts s l l).1 = (compareCounts s l l).2 ∧
        distanceOf (compareCounts s l l).1 (compareCounts s l l).2 k = 0) := by
  refine ⟨by simp [distanceOf], ?_, ?_, ?_⟩
  · intro h0 hne
    subst h0
    rw [distanceOf, if_neg hne, if_pos rfl]
  · intro hne h0
    rw [distanceOf, if_neg hne, if_neg h0]
  · rw [compareCounts_self]
    exact ⟨rfl, by simp [distanceOf]⟩

/-- C3 witness: concrete instances of the hypotheses of
`claim3_distance_cases`. -/
theorem claim3_distance_cases_witness :
    distanceOf 0 4 9 = 1 ∧
      (compareCounts 4 [1, 2] [1, 2]).1 = (compareCounts 4 [1, 2] [1, 2]).2 :=
  ⟨(claim3_distance_cases 0 4 9 4 [1, 2]).2.1 rfl (by decide),
    (claim3_distance_cases 0 4 9 4 [1, 2]).2.2.2.1⟩

/-- Rejection characterization of `compareSketches`: the result is `none`
exactly when the distance exceeds `maxDistance`, equals `1`, or the
p-value exceeds `maxPValue`. -/
theorem compareSketches_none_iff (pv : ℕ → ℕ → ℕ → ℝ → ℕ → ℝ)
    (rR rQ : Reference) (s k : ℕ) (ks maxD maxP : ℝ) :
    compareSketches pv rR rQ s k ks maxD maxP = none ↔
      (distanceOf (compareCounts s rR.hashesSorted rQ.hashesSorted).1
          (compareCounts s rR.hashesSorted rQ.hashesSorted).2 k > maxD ∨
        distanceOf (compareCounts s rR.hashesSorted rQ.hashesSorted).1
          (compareCounts s rR.hashesSorted rQ.hashesSorted).2 k = 1 ∨
        pv (compareCounts s rR.hashesSorted rQ.hashesSorted).1 rR.length
          rQ.length ks
          (compareCounts s rR.hashesSorted rQ.hashesSorted).2 > maxP) := by
  unfold compareSketches
  dsimp only
  split_ifs with h1 h2
  · exact iff_of_true rfl (by tauto)
  · exact iff_of_true rfl (by tauto)
  · refine iff_of_false (by simp) ?_
    rintro (h | h | h)
    · exact h1 (Or.inl h)
    · exact h1 (Or.inr h)
    · exact h2 h

/-- Acceptance characterization of `compareSketches`: on `some`, the output
carries exactly the computed `common`, `denom`, distance and p-value. -/
theorem compareSketches_some_eq (pv : ℕ → ℕ → ℕ → ℝ → ℕ → ℝ)
    (rR rQ : Reference) (s k : ℕ) (ks maxD maxP : ℝ) (out : PairOutput) :
    compareSketches pv rR rQ s k ks maxD maxP = some out →
      out.numer = (compareCounts s rR.hashesSorted rQ.hashesSorted).1 ∧
        out.denom = (compareCounts s rR.hashesSorted rQ.hashesSorted).2 ∧
        out.distance =
          distanceOf (compareCounts s rR.hashesSorted rQ.hashesSorted).1
            (compareCounts s rR.hashesSorted rQ.hashesSorted).2 k ∧
        out.pValue =
          pv (compareCounts s rR.hashesSorted rQ.hashesSorted).1 rR.length
            rQ.length ks (compareCounts s rR.hashesSorted rQ.hashesSorted).2 := by
  unfold compareSketches
  dsimp only
  split_ifs with h1 h2
  · intro h
    exact absurd h (by simp)
  · intro h
    exact absurd h (by simp)
  · intro h
    obtain rfl := (Option.some_inj.mp h).symm
    exact ⟨rfl, rfl, rfl, rfl⟩

/-- C4: `compareSketches` returns no-match iff the distance exceeds
`maxDistance`, the distance equals `1`, or the p-value exceeds
`maxPValue`; on acceptance the output is exactly
`(common, denom, distance, p-value)`. -/
theorem claim4_reject_accept (pv : ℕ → ℕ → ℕ → ℝ → ℕ → ℝ)
    (rR rQ : Reference) (s k : ℕ) (ks maxD maxP : ℝ) :
    (compareSketches pv rR rQ s k ks maxD maxP = none ↔
      (distanceOf (compareCounts s rR.hashesSorted rQ.hashesSorted).1
          (compareCounts s rR.hashesSorted rQ.hashesSorted).2 k > maxD ∨
        distanceOf (compareCounts s rR.hashesSorted rQ.hashesSorted).1
          (compareCounts s rR.hashesSorted rQ.hashesSorted).2 k = 1 ∨
        pv (compareCounts s rR.hashesSorted rQ.hashesSorted).1 rR.length
          rQ.length ks
          (compareCounts s rR.hashesSorted rQ.hashesSorted).2 > maxP)) ∧
      (∀ out : PairOutput,
        compareSketches pv rR rQ s k ks maxD maxP = some out →
          out.numer = (compareCounts s rR.hashesSorted rQ.hashesSorted).1 ∧
            out.denom = (compareCounts s rR.hashesSorted rQ.hashesSorted).2 ∧
            out.distance =
              distanceOf (compareCounts s rR.hashesSorted rQ.hashesSorted).1
                (compareCounts s rR.hashesSorted rQ.hashesSorted).2 k ∧
            out.pValue =
              pv (compareCounts s rR.hashesSorted rQ.hashesSorted).1 rR.length
                rQ.length ks
                (compareCounts s rR.hashesSorted rQ.hashesSorted).2) :=
  ⟨compareSketches_none_iff pv rR rQ s k ks maxD maxP,
    fun out => compareSketches_some_eq pv rR rQ s k ks maxD maxP out⟩

/-- C4 witness: two identical two-hash sketches with permissive thresholds
are accepted, and the recorded fields match the computed values. -/
theorem claim4_reject_accept_witness :
    (⟨0, 2, 2, (0 : ℝ), (0 : ℝ)⟩ : PairOutput).numer =
        (compareCounts 4 [1, 2] [1, 2]).1 ∧
      (⟨0, 2, 2, (0 : ℝ), (0 : ℝ)⟩ : PairOutput).denom =
        (compareCounts 4 [1, 2] [1, 2]).2 ∧
      (⟨0, 2, 2, (0 : ℝ), (0 : ℝ)⟩ : PairOutput).distance =
        distanceOf (compareCounts 4 [1, 2] [1, 2]).1
          (compareCounts 4 [1, 2] [1, 2]).2 9 ∧
      (⟨0, 2, 2, (0 : ℝ), (0 : ℝ)⟩ : PairOutput).pValue = (0 : ℝ) :=
  (claim4_reject_accept (fun _ _ _ _ _ => (0 : ℝ)) ⟨2, [1, 2]⟩ ⟨2, [1, 2]⟩
        4 9 1 1 1).2
    ⟨0, 2, 2, (0 : ℝ), (0 : ℝ)⟩
    (by
      unfold compareSketches
      dsimp only
      rw [compareCounts_self]
      have hd : distanceOf (min 4 (List.length [1, 2]))
          (min 4 (List.length [1, 2])) 9 = 0 := by simp [distanceOf]
      rw [hd]
      norm_num)

/-- C10: on two empty hash lists the merge returns `common = denom = 0`,
the `common = denom` branch makes the distance exactly `0`, and the
distance test rejects nothing (for any admissible `maxDistance ≥ 0`). -/
theorem claim10_empty_lists (s k : ℕ) (maxD : ℝ) (hD : 0 ≤ maxD) :
    compareCounts s [] [] = (0, 0) ∧
      distanceOf 0 0 k = 0 ∧
      ¬(distanceOf 0 0 k > maxD ∨ distanceOf 0 0 k = 1) := by
  have h0 : distanceOf 0 0 k = 0 := by simp [distanceOf]
  refine ⟨?_, h0, ?_⟩
  · unfold compareCounts
    rw [mergeStep_nil_nil]
    dsimp only
    split_ifs <;> simp_all
  · rw [h0]
    exact not_or.mpr ⟨not_lt.mpr hD, by norm_num⟩

/-- C10 witness: the default thresholds (`maxDistance = 1`) satisfy the
hypothesis. -/
theorem claim10_empty_lists_witness :
    compareCounts 400 [] [] = (0, 0) ∧
      distanceOf 0 0 9 = 0 ∧
      ¬(distanceOf 0 0 9 > (1 : ℝ) ∨ distanceOf 0 0 9 = 1) :=
  claim10_empty_lists 400 9 1 zero_le_one

/-! ### The inverted hash index (`fillHashTable`) and candidate search -/

/-- The sorted hash list of sketch `i` in the collection (out-of-range
indices give the empty list; the loops below never use them). -/
def hashesOf (s : List Reference) (i : ℕ) : List ℕ :=
  (s.getD i default).hashesSorted

/-- One `hashTable[hash].push_back(i)` of `fillHashTable`
(CommandPairwise.cpp:282): the table is a total map from hash value to the
list of appended sketch indices. -/
def pushHash (t : ℕ → List ℕ) (i hv : ℕ) : ℕ → List ℕ :=
  fun h' => if h' = hv then t h' ++ [i] else t h'

/-- The inner loop of `fillHashTable`: append `i` to the entry of each of
its hash values, in hash-list order. -/
def insertRef (t : ℕ → List ℕ) (i : ℕ) (hs : List ℕ) : ℕ → List ℕ :=
  hs.foldl (fun t hv => pushHash t i hv) t

/-- `fillHashTable` (CommandPairwise.cpp:266-284) over the round range
`[a, e)`: scan sketch indices in ascending order, starting from the empty
table. -/
def fillHashTable (s : List Reference) (a e : ℕ) : ℕ → List ℕ :=
  (List.range' a (e - a)).foldl
    (fun table i => insertRef table i (hashesOf s i)) fun _ => []

theorem insertRef_apply (hs : List ℕ) :
    ∀ (t : ℕ → List ℕ) (i h' : ℕ),
      insertRef t i hs h' = t h' ++ List.replicate (hs.count h') i := by
  induction hs with
  | nil => intro t i h'; simp [insertRef]
  | cons a hs ih =>
    intro t i h'
    show insertRef (pushHash t i a) i hs h' = _
    rw [ih]
    by_cases hha : h' = a
    · subst hha
      simp [pushHash, List.replicate_succ]
    · simp [pushHash, hha, List.count_cons, Ne.symm hha]

theorem fillFold_apply (s : List Reference) :
    ∀ (L : List ℕ) (t : ℕ → List ℕ) (h' : ℕ),
      (L.foldl (fun table i => insertRef table i (hashesOf s i)) t) h' =
        t h' ++
          (L.map fun i =>
            List.replicate ((hashesOf s i).count h') i).flatten := by
  intro L
  induction L with
  | nil => simp
  | cons b L ih =>
    intro t h'
    rw [List.foldl_cons, ih, insertRef_apply]
    simp

theorem fillHashTable_apply (s : List Reference) (a e h' : ℕ) :
    fillHashTable s a e h' =
      ((List.range' a (e - a)).map fun i =>
        List.replicate ((hashesOf s i).count h') i).flatten := by
  unfold fillHashTable
  rw [fillFold_apply]
  rfl

theorem mem_fillHashTable (s : List Reference) (a e h' i : ℕ) :
    i ∈ fillHashTable s a e h' ↔ a ≤ i ∧ i < e ∧ h' ∈ hashesOf s i := by
  rw [fillHashTable_apply]
  simp only [List.mem_flatten, List.mem_map]
  constructor
  · rintro ⟨l, ⟨j, hj, rfl⟩, hi⟩
    rw [List.mem_range'_1] at hj
    rcases List.mem_replicate.mp hi with ⟨hcnt, rfl⟩
    refine ⟨hj.1, by omega, ?_⟩
    by_contra hmem
    exact hcnt (List.count_eq_zero.mpr hmem)
  · rintro ⟨ha, he, hmem⟩
    refine ⟨List.replicate ((hashesOf s i).count h') i, ⟨i, ?_, rfl⟩, ?_⟩
    · rw [List.mem_range'_1]
      omega
    · exact List.mem_replicate.mpr
        ⟨by simpa [List.count_eq_zero] using hmem, rfl⟩

theorem flatten_map_ite_filter (p : ℕ → Bool) :
    ∀ (L : List ℕ) (f : ℕ → List ℕ),
      (∀ i ∈ L, f i = if p i then [i] else []) →
        (L.map f).flatten = L.filter p := by
  intro L
  induction L with
  | nil => intro f _; simp
  | cons b L ih =>
    intro f hf
    rw [List.map_cons, List.flatten_cons, List.filter_cons,
      hf b (List.mem_cons_self b L),
      ih f fun i hi => hf i (List.mem_cons_of_mem b hi)]
    cases hb : p b <;> simp [hb]

theorem fillHashTable_eq_filter (s : List Reference) (a e h' : ℕ)
    (hnd : ∀ i, i < e → (hashesOf s i).Nodup) :
    fillHashTable s a e h' =
      (List.range' a (e - a)).filter fun i => decide (h' ∈ hashesOf s i) := by
  rw [fillHashTable_apply]
  apply flatten_map_ite_filter
  intro i hi
  rw [List.mem_range'_1] at hi
  by_cases hmem : h' ∈ hashesOf s i
  · rw [List.count_eq_one_of_mem (hnd i (by omega)) hmem]
    simp [hmem]
  · rw [List.count_eq_zero_of_not_mem hmem]
    simp [hmem]

theorem fillHashTable_sorted (s : List Reference) (a e h' : ℕ)
    (hnd : ∀ i, i < e → (hashesOf s i).Nodup) :
    List.Sorted (· < ·) (fillHashTable s a e h') := by
  rw [fillHashTable_eq_filter s a e h' hnd]
  exact List.Pairwise.sublist (List.filter_sublist _)
    (List.pairwise_lt_range' a (e - a))

/-- C6: after `fillHashTable` over `[a, e)`, an index `i` is in the entry
of hash `hv` iff `a ≤ i < e` and `hv` occurs in sketch `i`'s hash list;
each entry is ordered by ascending sketch index (the append order of the
ascending scan; strictly so, since each sketch's hash list holds distinct
hashes). -/
theorem claim6_fill_hash_table (s : List Reference) (a e : ℕ)
    (hnd : ∀ i, i < e → (hashesOf s i).Nodup) (hv : ℕ) :
    (∀ i, i ∈ fillHashTable s a e hv ↔ a ≤ i ∧ i < e ∧ hv ∈ hashesOf s i) ∧
      List.Sorted (· < ·) (fillHashTable s a e hv) :=
  ⟨fun i => mem_fillHashTable s a e hv i, fillHashTable_sorted s a e hv hnd⟩

/-- C6 witness: a concrete two-sketch round. -/
theorem claim6_fill_hash_table_witness :
    (1 ∈ fillHashTable [⟨1, [5]⟩, ⟨1, [5, 7]⟩] 0 2 5 ↔
        0 ≤ 1 ∧ 1 < 2 ∧ 5 ∈ hashesOf [⟨1, [5]⟩, ⟨1, [5, 7]⟩] 1) ∧
      List.Sorted (· < ·) (fillHashTable [⟨1, [5]⟩, ⟨1, [5, 7]⟩] 0 2 5) :=
  ⟨(claim6_fill_hash_table [⟨1, [5]⟩, ⟨1, [5, 7]⟩] 0 2 (by decide) 5).1 1,
    (claim6_fill_hash_table [⟨1, [5]⟩, ⟨1, [5, 7]⟩] 0 2 (by decide) 5).2⟩

/-- The candidate-set construction of `search`
(CommandPairwise.cpp:345-368): for each hash of the query's sorted list,
walk the table entry and insert every listed index below the query index
into the duplicate-free set `targets` (`std::set`, modelled as `Finset`). -/
def searchTargets (table : ℕ → List ℕ) (qHashes : List ℕ) (qIdx : ℕ) :
    Finset ℕ :=
  qHashes.foldl
    (fun tg hv =>
      (table hv).foldl
        (fun tg2 idx => if idx < qIdx then insert idx tg2 else tg2) tg)
    ∅

theorem mem_inner_fold (qIdx : ℕ) :
    ∀ (L : List ℕ) (acc : Finset ℕ) (x : ℕ),
      x ∈ L.foldl
          (fun tg2 idx => if idx < qIdx then insert idx tg2 else tg2) acc ↔
        x ∈ acc ∨ (x ∈ L ∧ x < qIdx) := by
  intro L
  induction L with
  | nil => simp
  | cons b L ih =>
    intro acc x
    rw [List.foldl_cons, ih]
    by_cases hb : b < qIdx
    · rw [if_pos hb]
      simp only [Finset.mem_insert, List.mem_cons]
      constructor
      · rintro ((rfl | hx) | ⟨hxL, hxq⟩)
        · exact Or.inr ⟨Or.inl rfl, hb⟩
        · exact Or.inl hx
        · exact Or.inr ⟨Or.inr hxL, hxq⟩
      · rintro (hx | ⟨rfl | hxL, hxq⟩)
        · exact Or.inl (Or.inr hx)
        · exact Or.inl (Or.inl rfl)
        · exact Or.inr ⟨hxL, hxq⟩
    · rw [if_neg hb]
      simp only [List.mem_cons]
      constructor
      · rintro (hx | ⟨hxL, hxq⟩)
        · exact Or.inl hx
        · exact Or.inr ⟨Or.inr hxL, hxq⟩
      · rintro (hx | ⟨rfl | hxL, hxq⟩)
        · exact Or.inl hx
        · exact absurd hxq hb
        · exact Or.inr ⟨hxL, hxq⟩

theorem mem_searchTargets (table : ℕ → List ℕ) (qHashes : List ℕ)
    (qIdx x : ℕ) :
    x ∈ searchTargets table qHashes qIdx ↔
      ∃ hv ∈ qHashes, x ∈ table hv ∧ x < qIdx := by
  unfold searchTargets
  have outer :
      ∀ (L : List ℕ) (acc : Finset ℕ),
        x ∈ L.foldl
            (fun tg hv =>
              (table hv).foldl
                (fun tg2 idx => if idx < qIdx then insert idx tg2 else tg2)
                tg) acc ↔
          x ∈ acc ∨ ∃ hv ∈ L, x ∈ table hv ∧ x < qIdx := by
    intro L
    induction L with
    | nil => simp
    | cons b L ih =>
      intro acc
      rw [List.foldl_cons, ih, mem_inner_fold]
      constructor
      · rintro ((hx | ⟨hxb, hxq⟩) | ⟨hv, hvL, hx, hxq⟩)
        · exact Or.inl hx
        · exact Or.inr ⟨b, List.mem_cons_self b L, hxb, hxq⟩
        · exact Or.inr ⟨hv, List.mem_cons_of_mem b hvL, hx, hxq⟩
      · rintro (hx | ⟨hv, hvm, hx, hxq⟩)
        · exact Or.inl (Or.inl hx)
        · rcases List.mem_cons.mp hvm with rfl | hvL
          · exact Or.inl (Or.inr ⟨hx, hxq⟩)
          · exact Or.inr ⟨hv, hvL, hx, hxq⟩
  rw [outer]
  simp

/-- C5: the candidate set of `search` over the round's index is exactly
the set of reference indices strictly below the query that lie in the
round range and share at least one hash value with the query; in
particular no candidate `≥ qIdx` is produced and no zero-overlap pair is
ever passed to the estimator. -/
theorem claim5_candidate_set (s : List Reference) (a e qIdx x : ℕ) :
    x ∈ searchTargets (fillHashTable s a e) (hashesOf s qIdx) qIdx ↔
      x < qIdx ∧ a ≤ x ∧ x < e ∧
        ∃ hv, hv ∈ hashesOf s qIdx ∧ hv ∈ hashesOf s x := by
  rw [mem_searchTargets]
  constructor
  · rintro ⟨hv, hmem, hx, hlt⟩
    rw [mem_fillHashTable] at hx
    exact ⟨hlt, hx.1, hx.2.1, hv, hmem, hx.2.2⟩
  · rintro ⟨hlt, ha, he, hv, hq, hr⟩
    exact ⟨hv, hq, (mem_fillHashTable s a e hv x).mpr ⟨ha, he, hr⟩, hlt⟩

/-! ### The per-query worker (`search`) and its output order -/

/-- `search` (CommandPairwise.cpp:331-386): build the candidate set, then
iterate it in ascending order (`std::set` iteration), score each candidate
with `compareSketches`, and append accepted pairs with their reference
index filled in. -/
noncomputable def search (pv : ℕ → ℕ → ℕ → ℝ → ℕ → ℝ) (s : List Reference)
    (table : ℕ → List ℕ) (qIdx sketchSize kmerSize : ℕ)
    (kmerSpace maxD maxP : ℝ) : List PairOutput :=
  ((searchTargets table (hashesOf s qIdx) qIdx).sort (· ≤ ·)).filterMap
    fun i =>
      (compareSketches pv (s.getD qIdx default) (s.getD i default)
          sketchSize kmerSize kmerSpace maxD maxP).map
        fun p => { p with index := i }

theorem pairwise_index_lt_filterMap (f : ℕ → Option PairOutput)
    (hf : ∀ i p, f i = some p → p.index = i) :
    ∀ L : List ℕ, L.Pairwise (· < ·) →
      (L.filterMap f).Pairwise fun p p' => p.index < p'.index := by
  intro L
  induction L with
  | nil => intro _; simp
  | cons b L ih =>
    intro hp
    obtain ⟨hb, htail⟩ := List.pairwise_cons.mp hp
    rw [List.filterMap_cons]
    cases hfb : f b with
    | none => exact ih htail
    | some p =>
      refine List.Pairwise.cons ?_ (ih htail)
      intro p' hp'
      obtain ⟨j, hjL, hjp⟩ := List.mem_filterMap.mp hp'
      rw [hf b p hfb, hf j p' hjp]
      exact hb j hjL

/-- C8: the pairs in one query's result are ordered by strictly ascending
reference index: the duplicate-free candidate set is scanned in ascending
order and accepted pairs are appended in that order. -/
theorem claim8_pairs_ascending (pv : ℕ → ℕ → ℕ → ℝ → ℕ → ℝ)
    (s : List Reference) (table : ℕ → List ℕ)
    (qIdx sketchSize kmerSize : ℕ) (kmerSpace maxD maxP : ℝ) :
    (search pv s table qIdx sketchSize kmerSize kmerSpace maxD maxP).Pairwise
      fun p p' => p.index < p'.index := by
  unfold search
  apply pairwise_index_lt_filterMap
  · intro i p hp
    obtain ⟨p0, _, rfl⟩ := Option.map_eq_some'.mp hp
    rfl
  · exact Finset.sort_sorted_lt _

/-! ### The round partitioner (`CommandPairwise::run`, lines 177-222) -/

/-- The round count (CommandPairwise.cpp:178-183): `R·S / B / 2` in
integer arithmetic, bumped to `1` when zero.  `R` is the reference count,
`S` the sketch size (`minHashesPerWindow`), `B` the slot budget
(`hashTableSize`, fixed to `1 << 25` at the call site but kept
parametric here). -/
def roundsOf (R S B : ℕ) : ℕ :=
  if R * S / B / 2 = 0 then 1 else R * S / B / 2

/-- The round size (CommandPairwise.cpp:185): `R / rounds`. -/
def roundSizeOf (R S B : ℕ) : ℕ :=
  R / roundsOf R S B

/-- Round `i`'s start (CommandPairwise.cpp:189), never clamped. -/
def roundStart (R S B i : ℕ) : ℕ :=
  i * roundSizeOf R S B

/-- Round `i`'s end (CommandPairwise.cpp:190-196): `(i+1) * roundSize`,
clamped down to `R`. -/
def roundEnd (R S B i : ℕ) : ℕ :=
  min ((i + 1) * roundSizeOf R S B) R

/-- Whether reference index `x` lies in some round's range `[start, end)`. -/
def roundCovers (R S B x : ℕ) : Bool :=
  (List.range (roundsOf R S B)).any fun i =>
    decide (roundStart R S B i ≤ x ∧ x < roundEnd R S B i)

/-- C7: the computed round count equals `max 1 (R·S / B / 2)`, is never
zero, and the round size is `R / rounds` (well defined since
`rounds ≥ 1`). -/
theorem claim7_round_count (R S B : ℕ) (hR : 1 ≤ R) :
    roundsOf R S B = max 1 (R * S / B / 2) ∧
      1 ≤ roundsOf R S B ∧
      roundSizeOf R S B = R / roundsOf R S B := by
  refine ⟨?_, ?_, rfl⟩
  · unfold roundsOf
    generalize R * S / B / 2 = x
    split <;> omega
  · unfold roundsOf
    generalize R * S / B / 2 = x
    split <;> omega

/-- C7 witness: a collection whose total sketch volume is below the slot
budget still gets one round. -/
theorem claim7_round_count_witness :
    1 ≤ 3 ∧
      (roundsOf 3 1 (2 ^ 25) = max 1 (3 * 1 / 2 ^ 25 / 2) ∧
        1 ≤ roundsOf 3 1 (2 ^ 25) ∧
        roundSizeOf 3 1 (2 ^ 25) = 3 / roundsOf 3 1 (2 ^ 25)) :=
  ⟨by decide, claim7_round_count 3 1 (2 ^ 25) (by decide)⟩

/-- C1 (code bug): with `R = 5` references, sketch size `S = 2^25` and the
fixed budget `B = 2^25`, the partitioner computes `rounds = 2` and
`roundSize = 2`, so the round ranges are `[0,2)` and `[2,4)`: indices
`0..3` are covered but reference `4 < R` lies in no round — the union of
the round ranges is not `[0, R)`. -/
theorem claim1_round_union_gap :
    roundsOf 5 (2 ^ 25) (2 ^ 25) = 2 ∧
      roundSizeOf 5 (2 ^ 25) (2 ^ 25) = 2 ∧
      roundCovers 5 (2 ^ 25) (2 ^ 25) 0 = true ∧
      roundCovers 5 (2 ^ 25) (2 ^ 25) 1 = true ∧
      roundCovers 5 (2 ^ 25) (2 ^ 25) 2 = true ∧
      roundCovers 5 (2 ^ 25) (2 ^ 25) 3 = true ∧
      roundCovers 5 (2 ^ 25) (2 ^ 25) 4 = false ∧
      4 < 5 := by
  decide

/-! ### Table output (`CommandPairwise::writeOutput`, lines 227-264) -/

/-- One emitted token of a table-mode row after the query name: a tab
separator or a distance value. -/
inductive OutTok where
  | tab : OutTok
  | val : ℝ → OutTok

/-- The per-pair emission loop of `writeOutput` in table mode
(CommandPairwise.cpp:237-256): carrying the column counter `j`, emit one
tab per `j < pair.index` step, then a tab and the distance; `j` is never
advanced past the printed pair's own cell. -/
def rowToksFrom (j : ℕ) : List PairOutput → List OutTok
  | [] => []
  | p :: rest =>
    List.replicate (p.index - j) OutTok.tab ++
      OutTok.tab :: OutTok.val p.distance ::
        rowToksFrom (if j < p.index then p.index else j) rest

/-- A full table row after the query's name: the unconditional tab of
line 234 followed by the pair loop. -/
def tableRowToks (pairs : List PairOutput) : List OutTok :=
  OutTok.tab :: rowToksFrom 0 pairs

/-- Split a token stream into tab-separated cells, carrying the current
cell's content. -/
def cellsFrom (cur : Option ℝ) : List OutTok → List (Option ℝ)
  | [] => [cur]
  | OutTok.tab :: rest => cur :: cellsFrom none rest
  | OutTok.val d :: rest => cellsFrom (some d) rest

/-- The cells of a table row, one per column after the name column. -/
def tableRowCells (pairs : List PairOutput) : List (Option ℝ) :=
  (cellsFrom none (tableRowToks pairs)).drop 1

/-- The clamped round ends of the run loop, one per round. -/
def roundEndsList (R S B : ℕ) : List ℕ :=
  (List.range (roundsOf R S B)).map fun i => roundEnd R S B i

/-- The query indices submitted over the whole run
(CommandPairwise.cpp:187-209): each round submits every `j` with
`1 ≤ j < end` — rounds do not start at their own range. -/
def queriesProcessed (R S B : ℕ) : List ℕ :=
  ((roundEndsList R S B).map fun e => List.range' 1 (e - 1)).flatten

/-- How many table rows the run emits for query index `q` (one row per
submitted work item, empty or not). -/
def rowsForQuery (R S B q : ℕ) : ℕ :=
  (queriesProcessed R S B).count q

/-- C9 (code bug): a query with accepted pairs at reference indices `0`
and `1` yields the cells `[blank, d₀, blank, d₁]` instead of `[d₀, d₁]`
(each distance is shifted one column right and a spurious blank precedes
it); and in the two-round run with `R = 5`, `S = B = 2^25`, query `1` is
submitted (and thus gets a table row) twice, while queries `0` and `4`
get none. -/
theorem claim9_table_output_bug :
    tableRowCells [⟨0, 0, 0, (0 : ℝ), 0⟩, ⟨1, 0, 0, (1 : ℝ), 0⟩] =
        [none, some 0, none, some 1] ∧
      rowsForQuery 5 (2 ^ 25) (2 ^ 25) 1 = 2 ∧
      rowsForQuery 5 (2 ^ 25) (2 ^ 25) 0 = 0 ∧
      rowsForQuery 5 (2 ^ 25) (2 ^ 25) 4 = 0 :=
  ⟨rfl, by decide, by decide, by decide⟩

end RabbitMash
